import Mathlib

/-!
Shallow embedding of the `barelyhuman/unisearch` search engine
(`src/src/SearchCollection.ts` and the earlier phonetic-only Redis adapter
in `src/unnamed/part_000`) together with a model of the Redis ordered-set
(zset) commands the code issues.

Modelling conventions:
* Document ids are strings (Redis stores every member as a string; the JS
  code accepts `string | number` and Redis coerces numbers to strings).
* The two external text-normalisation collaborators — the Porter stemmer
  (`natural.PorterStemmer.stem`) and the double-metaphone encoder
  (`natural.DoubleMetaphone().process`) — are out of scope per the spec and
  are passed in as opaque pure functions `stem : String → String` and
  `met : String → List String`.
* A Redis sorted set is an association list from member to score; scores in
  this codebase are always natural numbers (term-frequency counts, or 0 for
  the typeahead strategy).
* JS `Record` objects (`counts`, `map`) are modelled as total functions,
  which is faithful on every key the code actually reads; `Object.keys`
  insertion order is modelled as first-occurrence deduplication (exact for
  all non-integer-like keys).
* JS exceptions (the `TypeError` thrown by `null.sort`/`null.map`) are
  modelled with `Except`.
-/

namespace Unisearch

/-! ### Text analyzer: `getWords` (`String(str).match(/\w+/g)`) -/

/-- JS regex `\w` character class: ASCII letters, digits and underscore. -/
def isWordChar (c : Char) : Bool := c.isAlphanum || c == '_'

/-- Accumulator-style extraction of the maximal `\w+` runs of a character
list; `cur` holds the (reversed) run currently being read. -/
def splitRunsAux (cur : List Char) : List Char → List (List Char)
  | [] => if cur.isEmpty then [] else [cur.reverse]
  | c :: rest =>
    if isWordChar c then splitRunsAux (c :: cur) rest
    else if cur.isEmpty then splitRunsAux [] rest
    else cur.reverse :: splitRunsAux [] rest

/-- Maximal `\w+` runs of a character list, in order. -/
def splitRuns (l : List Char) : List (List Char) := splitRunsAux [] l

/-- Model of `getWords`: `String(str).match(/\w+/g)`.  With the `g` flag,
`match` returns `null` when there is no match and otherwise a non-empty
array of the maximal matches in order. -/
def getWords (s : String) : Option (List String) :=
  let runs := (splitRuns s.data).map (fun cs => String.mk cs)
  if runs.isEmpty then none else some runs

/-- Model of `getWords` on a possibly-`null` JS argument: `String(null)`
coerces to the four-character string `"null"` before matching. -/
def getWordsJS : Option String → Option (List String)
  | none => getWords "null"
  | some s => getWords s

/-! ### Text analyzer: stemming, counting, metaphone map -/

/-- Model of `getStemWords`: maps the stemmer over the word list, returning
`[]` when `getWords` produced `null`. -/
def getStemWords (stem : String → String) : Option (List String) → List String
  | none => []
  | some ws => ws.map stem

/-- Model of `wordLength`: per-word occurrence counts, as the function the
`counts` record denotes. -/
def wordLength (words : List String) : String → Nat := fun w => words.count w

/-- First-occurrence-order deduplication, with the already-seen members
carried in `seen`. -/
def dedupAux (seen : List String) : List String → List String
  | [] => []
  | x :: xs => if seen.contains x then dedupAux seen xs else x :: dedupAux (x :: seen) xs

/-- Model of `Object.keys(generateMetaphoneMap(words))`: the stemmed words
deduplicated in first-occurrence order. -/
def dedupFirst (l : List String) : List String := dedupAux [] l

/-- Appends `d` to `arr` unless already present (`if (!arr.includes(d)) arr.push(d)`). -/
def pushUnique (arr : List String) (d : String) : List String :=
  if arr.contains d then arr else arr ++ [d]

/-- Model of `toMetaphoneArray`: all phonetic codes of all words,
deduplicated in first-occurrence order. -/
def toMetaphoneArray (met : String → List String) (words : List String) : List String :=
  words.foldl (fun arr w => (met w).foldl pushUnique arr) []

/-! ### Key construction (string concatenation, exactly as in the source) -/

/-- Forward posting-set key `index + ":word:" + code`. -/
def wordKey (index c : String) : String := index ++ ":word:" ++ c

/-- Reverse-index key `index + ":object:" + id`. -/
def objectKey (index id : String) : String := index ++ ":object:" ++ id

/-- Shared ephemeral combination key `index + "tmpkey"` of the phonetic search. -/
def tmpKey (index : String) : String := index ++ "tmpkey"

/-- Typeahead posting-set key `index + ":token:" + token`. -/
def tokenKey (index t : String) : String := index ++ ":token:" ++ t

/-- Typeahead combination-cache key `index + ":cache:" + joinedTokens`. -/
def cacheKey (index body : String) : String := index ++ ":cache:" ++ body

/-- Model of `getMetaphoneKeys(id, words)`: `id + ":word:" + code` for each
deduplicated code. -/
def getMetaphoneKeys (met : String → List String) (id : String) (words : List String) :
    List String :=
  (toMetaphoneArray met words).map (fun c => wordKey id c)

/-- Model of the `processLanguage` result record. -/
structure ProcessLanguage where
  words : List String
  counts : String → Nat
  map : String → List String
  keys : List String
  metaphoneKeys : Option (List String)

/-- Model of `processLanguage(str, id)`.  The JS falsiness test `!id` on a
string id holds exactly for the empty string. -/
def processLanguage (stem : String → String) (met : String → List String)
    (str : String) (id : String) : ProcessLanguage :=
  let words := getStemWords stem (getWords str)
  { words := words
    counts := wordLength words
    map := met
    keys := dedupFirst words
    metaphoneKeys := if id = "" then none else some (getMetaphoneKeys met id words) }

/-! ### The ordered-set store model -/

/-- One Redis sorted set: an association list member ↦ score. -/
abbrev ZSet := List (String × Nat)

/-- The whole store: key ↦ sorted set (absent keys are empty sets). -/
abbrev Store := String → ZSet

def emptyStore : Store := fun _ => []

/-- Score of `m` in the set, `none` when absent (Redis `ZSCORE`). -/
def zscoreD (l : ZSet) (m : String) : Option Nat :=
  (l.find? (fun p => p.1 == m)).map (·.2)

/-- Redis `ZADD key score member`: sets (replaces) the member's score. -/
def zaddEntry : ZSet → String → Nat → ZSet
  | [], m, n => [(m, n)]
  | p :: rest, m, n => if p.1 == m then (m, n) :: rest else p :: zaddEntry rest m n

/-- Boolean lexicographic comparison on characters (by code point). -/
def charLt (a b : Char) : Bool := a.toNat < b.toNat

/-- Boolean lexicographic comparison on character lists. -/
def charsLe : List Char → List Char → Bool
  | [], _ => true
  | _ :: _, [] => false
  | a :: as, b :: bs => if charLt a b then true else if charLt b a then false else charsLe as bs

/-- Redis sorted-set order: score ascending, ties by member lexicographic. -/
def pairLe (a b : String × Nat) : Bool :=
  a.2 < b.2 || (a.2 == b.2 && charsLe a.1.data b.1.data)

def insertPair (x : String × Nat) : ZSet → ZSet
  | [] => [x]
  | y :: ys => if pairLe x y then x :: y :: ys else y :: insertPair x ys

/-- Insertion sort of a sorted set's entries into Redis rank order. -/
def sortPairs (l : ZSet) : ZSet := l.foldr insertPair []

/-- Normalises a Redis rank argument: negative ranks count from the end. -/
def normRank (n : Int) (len : Nat) : Int := if n < 0 then n + len else n

/-- Rank-window slice of an already rank-ordered member list, with Redis
`ZRANGE` semantics for negative and out-of-range indices. -/
def sliceByRank (l : List String) (start stop : Int) : List String :=
  let n := l.length
  let a := normRank start n
  let b := normRank stop n
  if b < 0 then [] else (l.take (b.toNat + 1)).drop a.toNat

/-- Redis `ZRANGE key start stop [REV]` read. -/
def zrangeRead (s : Store) (key : String) (start stop : Int) (rev : Bool) : List String :=
  let ordered := (sortPairs (s key)).map (·.1)
  sliceByRank (if rev then ordered.reverse else ordered) start stop

/-- Redis `ZREMRANGEBYRANK`: removes the members occupying the rank window
(ascending rank order). -/
def zremrangebyrankList (l : ZSet) (start stop : Int) : ZSet :=
  let doomed := sliceByRank ((sortPairs l).map (·.1)) start stop
  l.filter (fun p => !(doomed.contains p.1))

/-- Redis `ZINTERSTORE` value: members present in every source, scores
summed (all weights 1). -/
def zinterList : List ZSet → ZSet
  | [] => []
  | first :: rest =>
    (first.filter (fun p => rest.all (fun zs => (zscoreD zs p.1).isSome))).map
      (fun p => (p.1, p.2 + (rest.map (fun zs => (zscoreD zs p.1).getD 0)).sum))

/-- Redis `ZUNIONSTORE` value: members present in any source, scores summed. -/
def zunionList (sets : List ZSet) : ZSet :=
  (dedupFirst (sets.flatMap (fun zs => zs.map (·.1)))).map
    (fun m => (m, (sets.map (fun zs => (zscoreD zs m).getD 0)).sum))

/-- The store commands the engine issues. -/
inductive Cmd
  | zadd (key : String) (score : Nat) (member : String)
  | zrem (key member : String)
  | del (key : String)
  | zinterstore (dest : String) (sources : List String)
  | zunionstore (dest : String) (sources : List String)
  | zremrangebyrank (key : String) (start stop : Int)

def applyCmd (s : Store) : Cmd → Store
  | .zadd key n m => fun k => if k == key then zaddEntry (s key) m n else s k
  | .zrem key m => fun k => if k == key then (s key).filter (fun p => p.1 != m) else s k
  | .del key => fun k => if k == key then [] else s k
  | .zinterstore dest srcs => fun k => if k == dest then zinterList (srcs.map s) else s k
  | .zunionstore dest srcs => fun k => if k == dest then zunionList (srcs.map s) else s k
  | .zremrangebyrank key a b => fun k => if k == key then zremrangebyrankList (s key) a b else s k

/-- One atomic batch (`client.multi(cmds).exec()`): the commands applied in
submission order. -/
def applyCmds (s : Store) (cs : List Cmd) : Store := cs.foldl applyCmd s

/-! ### Index writer (phonetic strategy) -/

/-- Model of the command list built by `writeToMetaphoneIndex` (identical to
`writeToIndex` of the earlier adapter): for every deduplicated stemmed word
and every one of its phonetic codes, a forward `zadd` and the mirrored
reverse `zadd`, both carrying the word's term frequency. -/
def metaphoneCmds (index id : String) (nlp : ProcessLanguage) : List Cmd :=
  nlp.keys.flatMap (fun word =>
    (nlp.map word).flatMap (fun wk =>
      [Cmd.zadd (wordKey index wk) (nlp.counts word) id,
       Cmd.zadd (objectKey index id) (nlp.counts word) wk]))

/-- Model of `set` in phonetic mode: `processLanguage` then
`writeToMetaphoneIndex`, one atomic batch. -/
def setMetaphone (stem : String → String) (met : String → List String)
    (index id text : String) (s : Store) : Store :=
  applyCmds s (metaphoneCmds index id (processLanguage stem met text id))

/-- Model of `zrevrangebyscore(key, "+inf", 0)`: every member (all scores
are naturals, hence in the `[0, +inf]` window), in descending rank order. -/
def revMembers (l : ZSet) : List String := ((sortPairs l).reverse).map (·.1)

/-- Command batch built by `removeFromIndex`: delete the reverse-index key,
then remove `id` from each forward posting set the reverse index named. -/
def removeCmds (index id : String) (s : Store) : List Cmd :=
  Cmd.del (objectKey index id)
    :: (revMembers (s (objectKey index id))).map (fun c => Cmd.zrem (wordKey index c) id)

/-- Model of `removeFromIndex`: `zrevrangebyscore(object-key, +inf, 0)`,
then one atomic batch deleting the reverse index and removing `id` from
every listed forward posting set. -/
def removeFromIndex (index id : String) (s : Store) : Store :=
  applyCmds s (removeCmds index id s)

/-- An externally observable phonetic-index operation. -/
inductive Op
  | set (id text : String)
  | del (id : String)

def applyOp (stem : String → String) (met : String → List String) (index : String)
    (s : Store) : Op → Store
  | .set id text => setMetaphone stem met index id text s
  | .del id => removeFromIndex index id s

def applyOps (stem : String → String) (met : String → List String) (index : String)
    (ops : List Op) (s : Store) : Store :=
  ops.foldl (applyOp stem met index) s

/-! ### Index writer (prefix strategy) -/

/-- Model of the token computation inside `getTextTokens`: all left-anchored
substrings of a word, shortest first (`d.slice(0, i + 1)` per character). -/
def prefixesOf (w : String) : List String :=
  (List.range w.data.length).map (fun i => String.mk (w.data.take (i + 1)))

/-- Model of `getTextTokens(text)`: `getWords(text).map(...)`, which throws
a `TypeError` when `getWords` returned `null`. -/
def getTextTokens (text : String) : Option (List (List String)) :=
  (getWords text).map (fun ws => ws.map prefixesOf)

/-- Model of `getTokenKeys`: flattens the per-word token lists in order. -/
def getTokenKeys (tokens : List (List String)) : List String :=
  tokens.flatMap (fun ws => ws)

/-- Model of `set` in prefix mode (`processText` + `writeToTypeAheadIndex`):
a `zadd` with score 0 into each token's posting set, one atomic batch;
errors when the text has no word characters (`null.map` throws). -/
def setTypeAhead (index id text : String) (s : Store) : Except String Store :=
  match getTextTokens text with
  | none => .error "TypeError: Cannot read properties of null (reading map)"
  | some tokens =>
    .ok (applyCmds s ((getTokenKeys tokens).map (fun key => Cmd.zadd (tokenKey index key) 0 id)))

/-! ### Query planner -/

/-- The four accepted `options.type` values. -/
inductive QType
  | intersect
  | union
  | and
  | or

/-- Model of the `types` lookup table. -/
def types : QType → String
  | .intersect => "zinterstore"
  | .union => "zunionstore"
  | .and => "zinterstore"
  | .or => "zunionstore"

/-- Model of `const _type = options?.type ? types[options.type] : null;
const type = _type ?? types["and"]` (every `types` value is truthy). -/
def resolveType (o : Option QType) : String :=
  match o with
  | some t => types t
  | none => types .and

/-- Model of the optional `between` window. -/
structure Between where
  fromIdx : Option Int
  toIdx : Option Int

/-- Model of `SearchOptions`. -/
structure SearchOptions where
  type : Option QType
  between : Option Between

/-- Model of `options?.between?.from ?? 0`. -/
def optStart (o : Option SearchOptions) : Int :=
  ((o.bind (·.between)).bind (·.fromIdx)).getD 0

/-- Model of `options?.between?.to ?? -1`. -/
def optStop (o : Option SearchOptions) : Int :=
  ((o.bind (·.between)).bind (·.toIdx)).getD (-1)

/-- Dispatch of the resolved command-name string to the store combination
command, as the string is passed verbatim to `multi`. -/
def combineCmd (t dest : String) (srcs : List String) : Cmd :=
  if t == "zunionstore" then .zunionstore dest srcs else .zinterstore dest srcs

/-- Model of `#metaphoneSearch`: analyze the query with the index name in
the id position, return `[]` with no store access when no metaphone keys
derive, otherwise run the atomic batch
`[combine → tmpkey; zrange tmpkey start stop REV; zremrangebyrank tmpkey start stop]`
and return the `zrange` result. -/
def metaphoneSearch (stem : String → String) (met : String → List String)
    (index : String) (s : Store) (text : String) (o : Option SearchOptions) :
    List String × Store :=
  let nlp := processLanguage stem met text index
  match nlp.metaphoneKeys with
  | none => ([], s)
  | some keys =>
    if keys.isEmpty then ([], s)
    else
      let t := resolveType (o.bind (·.type))
      let tkey := tmpKey index
      let s1 := applyCmd s (combineCmd t tkey keys)
      let res := zrangeRead s1 tkey (optStart o) (optStop o) true
      let s2 := applyCmd s1 (.zremrangebyrank tkey (optStart o) (optStop o))
      (res, s2)

/-- Lowercasing by data, modelling `toLocaleLowerCase` on ASCII input. -/
def lowerStr (s : String) : String := String.mk (s.data.map Char.toLower)

/-- Model of the sort comparator
`(x, y) => x.toLocaleLowerCase().localeCompare(y.toLocaleLowerCase())`. -/
def lowerLe (a b : String) : Bool := charsLe (lowerStr a).data (lowerStr b).data

def insertSorted (x : String) : List String → List String
  | [] => [x]
  | y :: ys => if lowerLe x y then x :: y :: ys else y :: insertSorted x ys

/-- Model of `words.sort(caseInsensitiveCompare)`. -/
def sortCI (l : List String) : List String := l.foldr insertSorted []

/-- Model of `Array.prototype.join(sep)`. -/
def joinSep (sep : String) : List String → String
  | [] => ""
  | [x] => x
  | x :: xs => x ++ sep ++ joinSep sep xs

/-- Model of `#typeaheadSearch`: `getWords` then `sort` (throwing on a
`null` word list), the combination branch whenever at least one token
derives (writing the content-addressed `:cache:` key), the direct
token-posting-set read only when zero tokens derive, then a plain
ascending `zrange` on the chosen key. -/
def typeaheadSearch (index : String) (s : Store) (text : String)
    (o : Option SearchOptions) : Except String (List String × Store) :=
  match getWords text with
  | none => .error "TypeError: Cannot read properties of null (reading sort)"
  | some ws =>
    let keys := sortCI ws
    let t := resolveType (o.bind (·.type))
    if 1 ≤ keys.length then
      let tkey :=
        if t == "zunionstore" then cacheKey index (joinSep "|" keys)
        else cacheKey index (joinSep "&" keys)
      let s1 := applyCmd s (combineCmd t tkey (keys.map (fun d => tokenKey index d)))
      .ok (zrangeRead s1 tkey (optStart o) (optStop o) false, s1)
    else
      let tkey := tokenKey index (joinSep "" keys)
      .ok (zrangeRead s tkey (optStart o) (optStop o) false, s)

/-- Result-list projection of a typeahead search outcome. -/
def taResult (r : Except String (List String × Store)) : List String :=
  match r with
  | .ok p => p.1
  | .error _ => []

/-- Store projection of a typeahead search outcome, with the pre-call store
as the value on the error path (nothing was written). -/
def taStore (d : Store) (r : Except String (List String × Store)) : Store :=
  match r with
  | .ok p => p.2
  | .error _ => d

/-- Model of the earlier phonetic-only adapter's `search`
(`src/unnamed/part_000`, `MODES.phonetic = 0` as a TS numeric enum): a
non-phonetic configured mode throws synchronously before any store
command; otherwise the body is the same phonetic search. -/
def searchP0 (stem : String → String) (met : String → List String)
    (mode : Nat) (index : String) (s : Store) (text : String)
    (o : Option SearchOptions) : Except String (List String) × Store :=
  if mode ≠ 0 then (.error "We only support phonetic search right now", s)
  else
    let r := metaphoneSearch stem met index s text o
    (.ok r.1, r.2)

/-! ### Auxiliary definitions used by the verification -/

/-- Key a command writes to. -/
def cmdKey : Cmd → String
  | .zadd k _ _ => k
  | .zrem k _ => k
  | .del k => k
  | .zinterstore d _ => d
  | .zunionstore d _ => d
  | .zremrangebyrank k _ _ => k

/-- Forward and reverse posting entries agree: the score of document `d`
under code `c` in the forward posting set equals the score of code `c` in
`d`'s reverse index — in particular each side is present iff the other is. -/
def Inv (index : String) (s : Store) : Prop :=
  ∀ c d, zscoreD (s (wordKey index c)) d = zscoreD (s (objectKey index d)) c

/-- Inner loop of `writeToMetaphoneIndex` over one word's phonetic codes,
as a flat command list. -/
def innerCmds (index id : String) (n : Nat) (codes : List String) : List Cmd :=
  codes.flatMap (fun wk =>
    [Cmd.zadd (wordKey index wk) n id, Cmd.zadd (objectKey index id) n wk])

/-- Outer loop of `writeToMetaphoneIndex` over the deduplicated words, each
carrying its term frequency and code list. -/
def itemCmds (index id : String) (items : List (Nat × List String)) : List Cmd :=
  items.flatMap (fun it => innerCmds index id it.1 it.2)

/-- Codes written by a full batch, item-level view. -/
def itemCodes (items : List (Nat × List String)) : List String := items.flatMap (·.2)

/-- Codes written by a `set()` call, as the NLP object presents them. -/
def writtenCodes (nlp : ProcessLanguage) : List String :=
  nlp.keys.flatMap (fun w => nlp.map w)

/-! ### Concrete scenario instances (stemmer and phonetic encoder are
external; these instantiations exercise the engine on concrete stores) -/

/-- Identity stemmer instantiation. -/
def idStem : String → String := fun w => w

/-- Single-code phonetic encoder instantiation. -/
def singMet : String → List String := fun w => [w]

/-- Store after `set("1", "cat cat")` then `set("1", "cat")` (phonetic). -/
def c1Store : Store :=
  setMetaphone idStem singMet "I" "1" "cat"
    (setMetaphone idStem singMet "I" "1" "cat cat" emptyStore)

/-- Store after `set("3", "foo bar")` (phonetic). -/
def c2Store : Store := setMetaphone idStem singMet "I" "3" "foo bar" emptyStore

/-- Store projection of a prefix-strategy `set` outcome. -/
def exStore (d : Store) : Except String Store → Store
  | .ok s => s
  | .error _ => d

/-- Store after `set("2", "bar")` (prefix strategy). -/
def c3Store : Store := exStore emptyStore (setTypeAhead "I" "2" "bar" emptyStore)

/-! ### Key-schema lemmas: the concatenated key shapes never collide -/

theorem wordKey_inj {i a b : String} (h : wordKey i a = wordKey i b) : a = b := by
  apply String.ext
  have h' := congrArg String.data h
  simp [wordKey, String.data_append] at h'
  exact h'

theorem objectKey_inj {i a b : String} (h : objectKey i a = objectKey i b) : a = b := by
  apply String.ext
  have h' := congrArg String.data h
  simp [objectKey, String.data_append] at h'
  exact h'

theorem wordKey_ne_objectKey (i a b : String) : wordKey i a ≠ objectKey i b := by
  intro h
  have h' := congrArg String.data h
  simp [wordKey, objectKey, String.data_append] at h'

theorem tmpKey_ne_wordKey (i c : String) : tmpKey i ≠ wordKey i c := by
  intro h
  have h' := congrArg String.data h
  simp [wordKey, tmpKey, String.data_append] at h'

/-! ### Sorted-set lemmas -/

theorem zscoreD_nil (m : String) : zscoreD [] m = none := rfl

theorem zscoreD_cons (p : String × Nat) (l : ZSet) (m : String) :
    zscoreD (p :: l) m = if p.1 = m then some p.2 else zscoreD l m := by
  by_cases h : p.1 = m <;> simp [zscoreD, List.find?_cons, h]

theorem zscoreD_zaddEntry (l : ZSet) (m m' : String) (n : Nat) :
    zscoreD (zaddEntry l m n) m' = if m' = m then some n else zscoreD l m' := by
  induction l with
  | nil => by_cases h : m' = m <;> simp [zaddEntry, zscoreD_cons, zscoreD_nil, h, Ne.symm]
  | cons p rest ih =>
    by_cases hp : p.1 = m
    · simp only [zaddEntry, hp, beq_self_eq_true, if_true]
      by_cases h : m' = m <;> simp [zscoreD_cons, h, hp, Ne.symm]
    · simp only [zaddEntry, beq_eq_false_iff_ne.mpr hp, if_false]
      by_cases h : m' = m
      · subst h; simp [zscoreD_cons, hp, ih]
      · simp [zscoreD_cons, h, ih]

theorem zscoreD_zrem (l : ZSet) (m x : String) :
    zscoreD (l.filter (fun p => p.1 != m)) x = if x = m then none else zscoreD l x := by
  induction l with
  | nil => by_cases h : x = m <;> simp [zscoreD_nil, h]
  | cons p rest ih =>
    by_cases hp : p.1 = m
    · have hb : (p.1 != m) = false := by simp [hp]
      rw [List.filter_cons, hb]
      simp only [Bool.false_eq_true, if_false]
      rw [ih]
      by_cases h : x = m
      · simp [h]
      · have hpx : p.1 ≠ x := by rw [hp]; exact fun hh => h hh.symm
        rw [zscoreD_cons]
        simp [h, hpx]
    · have hb : (p.1 != m) = true := by simp [hp]
      rw [List.filter_cons, hb]
      simp only [if_true]
      rw [zscoreD_cons, zscoreD_cons, ih]
      by_cases hx : p.1 = x
      · have hxm : ¬ x = m := by rw [← hx]; exact hp
        simp [hx, hxm]
      · simp [hx]

theorem zscoreD_isSome_of_mem {l : ZSet} {m : String} {n : Nat} (h : (m, n) ∈ l) :
    (zscoreD l m).isSome := by
  induction l with
  | nil => cases h
  | cons p rest ih =>
    rcases List.mem_cons.mp h with h' | h'
    · subst h'; simp [zscoreD_cons]
    · rw [zscoreD_cons]
      by_cases hp : p.1 = m
      · simp [hp]
      · simp only [hp, if_false]
        exact ih h'

theorem mem_of_zscoreD_isSome {l : ZSet} {m : String} (h : (zscoreD l m).isSome) :
    ∃ n, (m, n) ∈ l := by
  induction l with
  | nil => simp [zscoreD_nil] at h
  | cons p rest ih =>
    rw [zscoreD_cons] at h
    by_cases hp : p.1 = m
    · exact ⟨p.2, by simp [← hp, List.mem_cons]⟩
    · simp only [hp, if_false] at h
      obtain ⟨n, hn⟩ := ih h
      exact ⟨n, List.mem_cons_of_mem _ hn⟩

theorem mem_insertPair {x p : String × Nat} {l : ZSet} (h : p ∈ insertPair x l) :
    p = x ∨ p ∈ l := by
  induction l with
  | nil => simpa [insertPair] using h
  | cons y ys ih =>
    rw [insertPair] at h
    split at h
    · rcases List.mem_cons.mp h with h' | h'
      · exact Or.inl h'
      · exact Or.inr h'
    · rcases List.mem_cons.mp h with h' | h'
      · exact Or.inr (h' ▸ List.mem_cons_self y ys)
      · rcases ih h' with h'' | h''
        · exact Or.inl h''
        · exact Or.inr (List.mem_cons_of_mem _ h'')

theorem mem_insertPair_of_mem {x p : String × Nat} {l : ZSet} (h : p = x ∨ p ∈ l) :
    p ∈ insertPair x l := by
  induction l with
  | nil =>
    rcases h with h | h
    · simp [insertPair, h]
    · cases h
  | cons y ys ih =>
    rw [insertPair]
    split
    · rcases h with h | h
      · simp [h]
      · exact List.mem_cons_of_mem _ h
    · rcases h with h | h
      · exact List.mem_cons_of_mem _ (ih (Or.inl h))
      · rcases List.mem_cons.mp h with h' | h'
        · exact h' ▸ List.mem_cons_self y _
        · exact List.mem_cons_of_mem _ (ih (Or.inr h'))

theorem mem_sortPairs {p : String × Nat} {l : ZSet} : p ∈ sortPairs l ↔ p ∈ l := by
  induction l with
  | nil => simp [sortPairs]
  | cons y ys ih =>
    constructor
    · intro h
      rcases mem_insertPair (by simpa [sortPairs] using h) with h' | h'
      · simp [h']
      · exact List.mem_cons_of_mem _ (ih.mp (by simpa [sortPairs] using h'))
    · intro h
      show p ∈ insertPair y (sortPairs ys)
      rcases List.mem_cons.mp h with h' | h'
      · exact mem_insertPair_of_mem (Or.inl h')
      · exact mem_insertPair_of_mem (Or.inr (ih.mpr h'))

theorem mem_sliceByRank {l : List String} {a b : Int} {x : String}
    (h : x ∈ sliceByRank l a b) : x ∈ l := by
  rw [sliceByRank] at h
  by_cases hb : normRank b l.length < 0
  · simp [hb] at h
  · simp only [hb, if_false] at h
    exact List.mem_of_mem_take (List.mem_of_mem_drop h)

theorem mem_zrangeRead {s : Store} {key : String} {a b : Int} {rev : Bool} {x : String}
    (h : x ∈ zrangeRead s key a b rev) : (zscoreD (s key) x).isSome := by
  rw [zrangeRead] at h
  have hx : x ∈ (sortPairs (s key)).map (·.1) := by
    cases rev with
    | false => simpa using mem_sliceByRank h
    | true =>
      have h1 := mem_sliceByRank h
      simp only [if_true] at h1
      exact List.mem_reverse.mp (by simpa using h1)
  obtain ⟨p, hp, hpx⟩ := List.mem_map.mp hx
  have hmem2 : (x, p.2) ∈ s key := by
    have h3 := mem_sortPairs.mp hp
    have hpe : p = (x, p.2) := by rw [← hpx]
    rwa [hpe] at h3
  exact zscoreD_isSome_of_mem hmem2

/-! ### Command frame lemmas -/

theorem applyCmd_other {s : Store} {c : Cmd} {k : String} (h : k ≠ cmdKey c) :
    applyCmd s c k = s k := by
  cases c <;> simp_all [applyCmd, cmdKey]

theorem applyCmds_other {cs : List Cmd} {k : String} (h : ∀ c ∈ cs, k ≠ cmdKey c) :
    ∀ s : Store, applyCmds s cs k = s k := by
  induction cs with
  | nil => intro s; rfl
  | cons c rest ih =>
    intro s
    have : applyCmds s (c :: rest) = applyCmds (applyCmd s c) rest := rfl
    rw [this, ih (fun c' hc' => h c' (List.mem_cons_of_mem _ hc')),
      applyCmd_other (h c (List.mem_cons_self c rest))]

theorem applyCmds_cons (s : Store) (c : Cmd) (cs : List Cmd) :
    applyCmds s (c :: cs) = applyCmds (applyCmd s c) cs := rfl

theorem applyCmds_append (s : Store) (l1 l2 : List Cmd) :
    applyCmds s (l1 ++ l2) = applyCmds (applyCmds s l1) l2 :=
  List.foldl_append ..

theorem applyCmd_self_zadd (s : Store) (key m : String) (n : Nat) :
    applyCmd s (.zadd key n m) key = zaddEntry (s key) m n := by simp [applyCmd]

theorem applyCmd_self_zrem (s : Store) (key m : String) :
    applyCmd s (.zrem key m) key = (s key).filter (fun p => p.1 != m) := by simp [applyCmd]

theorem applyCmd_self_del (s : Store) (key : String) :
    applyCmd s (.del key) key = [] := by simp [applyCmd]

/-! ### Forward/reverse consistency invariant of the phonetic index -/

theorem inv_empty (index : String) : Inv index emptyStore := fun _ _ => rfl

/-- One forward/reverse `zadd` pair of `writeToMetaphoneIndex` preserves
the invariant. -/
theorem inv_pair {index : String} {s : Store} (id wk : String) (n : Nat) (h : Inv index s) :
    Inv index (applyCmd (applyCmd s (Cmd.zadd (wordKey index wk) n id))
      (Cmd.zadd (objectKey index id) n wk)) := by
  intro c d
  have hL1 : (applyCmd (applyCmd s (Cmd.zadd (wordKey index wk) n id))
      (Cmd.zadd (objectKey index id) n wk)) (wordKey index c)
      = applyCmd s (Cmd.zadd (wordKey index wk) n id) (wordKey index c) :=
    applyCmd_other (wordKey_ne_objectKey index c id)
  rw [hL1]
  by_cases hd : d = id
  · subst hd
    have hR1 : (applyCmd (applyCmd s (Cmd.zadd (wordKey index wk) n d))
        (Cmd.zadd (objectKey index d) n wk)) (objectKey index d)
        = zaddEntry ((applyCmd s (Cmd.zadd (wordKey index wk) n d)) (objectKey index d)) wk n :=
      applyCmd_self_zadd ..
    have hR2 : (applyCmd s (Cmd.zadd (wordKey index wk) n d)) (objectKey index d)
        = s (objectKey index d) :=
      applyCmd_other (Ne.symm (wordKey_ne_objectKey index wk d))
    rw [hR1, hR2, zscoreD_zaddEntry]
    by_cases hc : c = wk
    · subst hc
      rw [applyCmd_self_zadd, zscoreD_zaddEntry]
      simp
    · have hkey : wordKey index c ≠ wordKey index wk := fun he => hc (wordKey_inj he)
      rw [applyCmd_other (by simpa [cmdKey] using hkey)]
      simp only [hc, if_false]
      exact h c d
  · have hR1 : (applyCmd (applyCmd s (Cmd.zadd (wordKey index wk) n id))
        (Cmd.zadd (objectKey index id) n wk)) (objectKey index d)
        = (applyCmd s (Cmd.zadd (wordKey index wk) n id)) (objectKey index d) :=
      applyCmd_other (by simpa [cmdKey] using fun he => hd (objectKey_inj he))
    have hR2 : (applyCmd s (Cmd.zadd (wordKey index wk) n id)) (objectKey index d)
        = s (objectKey index d) :=
      applyCmd_other (Ne.symm (wordKey_ne_objectKey index wk d))
    rw [hR1, hR2]
    by_cases hc : c = wk
    · subst hc
      rw [applyCmd_self_zadd, zscoreD_zaddEntry]
      simp only [hd, if_false]
      exact h c d
    · have hkey : wordKey index c ≠ wordKey index wk := fun he => hc (wordKey_inj he)
      rw [applyCmd_other (by simpa [cmdKey] using hkey)]
      exact h c d

theorem metaphoneCmds_eq_itemCmds (index id : String) (nlp : ProcessLanguage) :
    metaphoneCmds index id nlp
      = itemCmds index id (nlp.keys.map (fun w => (nlp.counts w, nlp.map w))) := by
  unfold metaphoneCmds itemCmds innerCmds
  rw [List.flatMap_map]

theorem inv_innerCmds (index id : String) (n : Nat) (codes : List String) :
    ∀ s, Inv index s → Inv index (applyCmds s (innerCmds index id n codes)) := by
  induction codes with
  | nil => intro s h; exact h
  | cons wk rest ih =>
    intro s h
    have he : innerCmds index id n (wk :: rest)
        = Cmd.zadd (wordKey index wk) n id :: Cmd.zadd (objectKey index id) n wk
          :: innerCmds index id n rest := by
      simp [innerCmds]
    rw [he, applyCmds_cons, applyCmds_cons]
    exact ih _ (inv_pair id wk n h)

theorem inv_itemCmds (index id : String) (items : List (Nat × List String)) :
    ∀ s, Inv index s → Inv index (applyCmds s (itemCmds index id items)) := by
  induction items with
  | nil => intro s h; exact h
  | cons it rest ih =>
    intro s h
    have he : itemCmds index id (it :: rest)
        = innerCmds index id it.1 it.2 ++ itemCmds index id rest := by
      simp [itemCmds]
    rw [he, applyCmds_append]
    exact ih _ (inv_innerCmds index id it.1 it.2 s h)

theorem inv_setMetaphone (stem : String → String) (met : String → List String)
    (index id text : String) {s : Store} (h : Inv index s) :
    Inv index (setMetaphone stem met index id text s) := by
  unfold setMetaphone
  rw [metaphoneCmds_eq_itemCmds]
  exact inv_itemCmds index id _ s h

/-! ### `removeFromIndex` lemmas -/

theorem mem_revMembers_of_isSome {l : ZSet} {m : String} (h : (zscoreD l m).isSome) :
    m ∈ revMembers l := by
  obtain ⟨n, hn⟩ := mem_of_zscoreD_isSome h
  exact List.mem_map.mpr ⟨(m, n), List.mem_reverse.mpr (mem_sortPairs.mpr hn), rfl⟩

theorem zrem_list_clears (index id : String) (cs : List String) (c₀ : String) (h : c₀ ∈ cs) :
    ∀ s, zscoreD ((applyCmds s (cs.map (fun c => Cmd.zrem (wordKey index c) id)))
      (wordKey index c₀)) id = none := by
  induction cs with
  | nil => cases h
  | cons c rest ih =>
    intro s
    rw [List.map_cons, applyCmds_cons]
    by_cases hm : c₀ ∈ rest
    · exact ih hm _
    · have hc : c₀ = c := by
        rcases List.mem_cons.mp h with h' | h'
        · exact h'
        · exact absurd h' hm
      subst hc
      have huntouched : ∀ cmd ∈ rest.map (fun c => Cmd.zrem (wordKey index c) id),
          wordKey index c₀ ≠ cmdKey cmd := by
        intro cmd hcmd
        obtain ⟨c', hc', hce⟩ := List.mem_map.mp hcmd
        rw [← hce]
        simp only [cmdKey]
        exact fun he => hm (wordKey_inj he ▸ hc')
      rw [applyCmds_other huntouched _, applyCmd_self_zrem, zscoreD_zrem]
      simp

theorem zrem_list_preserves_member (index id d : String) (hd : d ≠ id) (cs : List String)
    (k : String) : ∀ s,
    zscoreD ((applyCmds s (cs.map (fun c => Cmd.zrem (wordKey index c) id))) k) d
      = zscoreD (s k) d := by
  induction cs with
  | nil => intro s; rfl
  | cons c rest ih =>
    intro s
    rw [List.map_cons, applyCmds_cons, ih]
    by_cases hk : k = wordKey index c
    · subst hk
      rw [applyCmd_self_zrem, zscoreD_zrem]
      simp [hd]
    · rw [applyCmd_other (by simpa [cmdKey] using hk)]

theorem removeFromIndex_objectKey (index id : String) (s : Store) :
    (removeFromIndex index id s) (objectKey index id) = [] := by
  unfold removeFromIndex removeCmds
  rw [applyCmds_cons]
  have huntouched : ∀ cmd ∈ (revMembers (s (objectKey index id))).map
      (fun c => Cmd.zrem (wordKey index c) id), objectKey index id ≠ cmdKey cmd := by
    intro cmd hcmd
    obtain ⟨c', _, hce⟩ := List.mem_map.mp hcmd
    rw [← hce]
    simp only [cmdKey]
    exact Ne.symm (wordKey_ne_objectKey index c' id)
  rw [applyCmds_other huntouched _, applyCmd_self_del]

theorem removeFromIndex_objectKey_other (index id d : String) (hd : d ≠ id) (s : Store) :
    (removeFromIndex index id s) (objectKey index d) = s (objectKey index d) := by
  unfold removeFromIndex removeCmds
  have huntouched : ∀ cmd ∈ Cmd.del (objectKey index id)
      :: (revMembers (s (objectKey index id))).map (fun c => Cmd.zrem (wordKey index c) id),
      objectKey index d ≠ cmdKey cmd := by
    intro cmd hcmd
    rcases List.mem_cons.mp hcmd with h' | h'
    · rw [h']
      simp only [cmdKey]
      exact fun he => hd (objectKey_inj he)
    · obtain ⟨c', _, hce⟩ := List.mem_map.mp h'
      rw [← hce]
      simp only [cmdKey]
      exact Ne.symm (wordKey_ne_objectKey index c' d)
  rw [applyCmds_other huntouched _]

theorem delete_clears_forward (index id : String) {s : Store} (h : Inv index s) (c : String) :
    zscoreD ((removeFromIndex index id s) (wordKey index c)) id = none := by
  unfold removeFromIndex removeCmds
  rw [applyCmds_cons]
  by_cases hc : c ∈ revMembers (s (objectKey index id))
  · exact zrem_list_clears index id _ c hc _
  · have huntouched : ∀ cmd ∈ (revMembers (s (objectKey index id))).map
        (fun c' => Cmd.zrem (wordKey index c') id), wordKey index c ≠ cmdKey cmd := by
      intro cmd hcmd
      obtain ⟨c', hc', hce⟩ := List.mem_map.mp hcmd
      rw [← hce]
      simp only [cmdKey]
      exact fun he => hc (wordKey_inj he ▸ hc')
    rw [applyCmds_other huntouched _,
      applyCmd_other (by simpa [cmdKey] using wordKey_ne_objectKey index c id), h c id]
    by_cases hs : (zscoreD (s (objectKey index id)) c).isSome
    · exact absurd (mem_revMembers_of_isSome hs) hc
    · exact Option.not_isSome_iff_eq_none.mp hs

theorem inv_removeFromIndex (index id : String) {s : Store} (h : Inv index s) :
    Inv index (removeFromIndex index id s) := by
  intro c d
  by_cases hd : d = id
  · subst hd
    rw [delete_clears_forward index d h c, removeFromIndex_objectKey]
    rfl
  · have hL : zscoreD ((removeFromIndex index id s) (wordKey index c)) d
        = zscoreD (s (wordKey index c)) d := by
      unfold removeFromIndex removeCmds
      rw [applyCmds_cons, zrem_list_preserves_member index id d hd _ _,
        applyCmd_other (by simpa [cmdKey] using wordKey_ne_objectKey index c id)]
    rw [hL, removeFromIndex_objectKey_other index id d hd, h c d]

theorem inv_applyOps (stem : String → String) (met : String → List String) (index : String)
    (ops : List Op) : ∀ s, Inv index s → Inv index (applyOps stem met index ops s) := by
  induction ops with
  | nil => intro s h; exact h
  | cons op rest ih =>
    intro s h
    cases op with
    | set id text => exact ih _ (inv_setMetaphone stem met index id text h)
    | del id => exact ih _ (inv_removeFromIndex index id h)

theorem removeFromIndex_noop {index id : String} {s : Store} (h : s (objectKey index id) = []) :
    removeFromIndex index id s = s := by
  funext k
  unfold removeFromIndex removeCmds
  rw [h]
  show applyCmd s (Cmd.del (objectKey index id)) k = s k
  by_cases hk : k = objectKey index id
  · subst hk
    rw [applyCmd_self_del, h]
  · exact applyCmd_other (by simpa [cmdKey] using hk)

/-! ### Combination-command lemmas -/

theorem zscoreD_isSome_of_mem_fst {l : ZSet} {m : String} (h : m ∈ l.map (·.1)) :
    (zscoreD l m).isSome := by
  obtain ⟨p, hp, hpe⟩ := List.mem_map.mp h
  have hmem : (m, p.2) ∈ l := by
    rw [← hpe]
    simpa using hp
  exact zscoreD_isSome_of_mem hmem

theorem zinterList_member {sets : List ZSet} {m : String}
    (h : (zscoreD (zinterList sets) m).isSome) :
    ∃ zs ∈ sets, (zscoreD zs m).isSome := by
  cases sets with
  | nil => simp [zinterList, zscoreD_nil] at h
  | cons first rest =>
    obtain ⟨n, hn⟩ := mem_of_zscoreD_isSome h
    obtain ⟨p, hp, hpe⟩ := List.mem_map.mp hn
    have hp1 : p.1 = m := congrArg Prod.fst hpe
    have hpf : (m, p.2) ∈ first := by
      rw [← hp1]
      simpa using List.mem_of_mem_filter hp
    exact ⟨first, List.mem_cons_self _ _, zscoreD_isSome_of_mem hpf⟩

theorem mem_dedupAux {l : List String} {x : String} :
    ∀ {seen : List String}, x ∈ dedupAux seen l → x ∈ l := by
  induction l with
  | nil => intro seen h; cases h
  | cons y ys ih =>
    intro seen h
    rw [dedupAux] at h
    split at h
    · exact List.mem_cons_of_mem _ (ih h)
    · rcases List.mem_cons.mp h with h' | h'
      · exact h' ▸ List.mem_cons_self _ _
      · exact List.mem_cons_of_mem _ (ih h')

theorem zunionList_member {sets : List ZSet} {m : String}
    (h : (zscoreD (zunionList sets) m).isSome) :
    ∃ zs ∈ sets, (zscoreD zs m).isSome := by
  obtain ⟨n, hn⟩ := mem_of_zscoreD_isSome h
  obtain ⟨m', hm', hme⟩ := List.mem_map.mp hn
  have hm'm : m' = m := congrArg Prod.fst hme
  subst hm'm
  have hmem : m' ∈ sets.flatMap (fun zs => zs.map (·.1)) := mem_dedupAux hm'
  obtain ⟨zs, hzs, hmzs⟩ := List.mem_flatMap.mp hmem
  exact ⟨zs, hzs, zscoreD_isSome_of_mem_fst hmzs⟩

theorem cmdKey_combineCmd (t dest : String) (srcs : List String) :
    cmdKey (combineCmd t dest srcs) = dest := by
  unfold combineCmd
  split <;> rfl

theorem applyCmd_combine_self (t dest : String) (srcs : List String) (s : Store) :
    applyCmd s (combineCmd t dest srcs) dest = zinterList (srcs.map s)
      ∨ applyCmd s (combineCmd t dest srcs) dest = zunionList (srcs.map s) := by
  unfold combineCmd
  split
  · right
    simp [applyCmd]
  · left
    simp [applyCmd]

theorem combine_member {t dest : String} {srcs : List String} {s : Store} {m : String}
    (h : (zscoreD ((applyCmd s (combineCmd t dest srcs)) dest) m).isSome) :
    ∃ k ∈ srcs, (zscoreD (s k) m).isSome := by
  rcases applyCmd_combine_self t dest srcs s with he | he
  · rw [he] at h
    obtain ⟨zs, hzs, hsome⟩ := zinterList_member h
    obtain ⟨k, hk, hke⟩ := List.mem_map.mp hzs
    exact ⟨k, hk, hke ▸ hsome⟩
  · rw [he] at h
    obtain ⟨zs, hzs, hsome⟩ := zunionList_member h
    obtain ⟨k, hk, hke⟩ := List.mem_map.mp hzs
    exact ⟨k, hk, hke ▸ hsome⟩

theorem combine_store_congr {srcs : List String} {s s' : Store}
    (h : ∀ k ∈ srcs, s k = s' k) (t dest : String) :
    applyCmd s (combineCmd t dest srcs) dest = applyCmd s' (combineCmd t dest srcs) dest := by
  have hm : srcs.map s = srcs.map s' := List.map_congr_left h
  unfold combineCmd
  split <;> simp [applyCmd, hm]

theorem zrangeRead_congr {s s' : Store} {key : String} (h : s key = s' key)
    (a b : Int) (rev : Bool) : zrangeRead s key a b rev = zrangeRead s' key a b rev := by
  unfold zrangeRead
  rw [h]

/-! ### `processLanguage` projection lemmas -/

theorem processLanguage_metaphoneKeys (stem : String → String) (met : String → List String)
    (str id : String) : (processLanguage stem met str id).metaphoneKeys
      = if id = "" then none
        else some (getMetaphoneKeys met id (getStemWords stem (getWords str))) := rfl

theorem processLanguage_keys (stem : String → String) (met : String → List String)
    (str id : String) : (processLanguage stem met str id).keys
      = dedupFirst (getStemWords stem (getWords str)) := rfl

theorem processLanguage_map (stem : String → String) (met : String → List String)
    (str id : String) : (processLanguage stem met str id).map = met := rfl

/-! ### Phonetic search structure lemmas -/

/-- Members of a phonetic search result all occur in some forward posting
set of the pre-search store. -/
theorem metaphoneSearch_member {stem : String → String} {met : String → List String}
    {index : String} {s : Store} {text : String} {o : Option SearchOptions} {m : String}
    (h : m ∈ (metaphoneSearch stem met index s text o).1) :
    ∃ c, (zscoreD (s (wordKey index c)) m).isSome := by
  rw [metaphoneSearch] at h
  rw [processLanguage_metaphoneKeys] at h
  by_cases hik : index = ""
  · rw [if_pos hik] at h
    cases h
  · rw [if_neg hik] at h
    set keys := getMetaphoneKeys met index (getStemWords stem (getWords text)) with hkeys
    by_cases hke : keys.isEmpty
    · simp only [hke, if_true] at h
      cases h
    · simp only [hke, Bool.false_eq_true, if_false] at h
      have hsome := mem_zrangeRead h
      obtain ⟨k, hk, hks⟩ := combine_member hsome
      rw [hkeys] at hk
      obtain ⟨c, _, hce⟩ := List.mem_map.mp hk
      exact ⟨c, hce ▸ hks⟩

/-- A phonetic search writes only the shared ephemeral key. -/
theorem metaphoneSearch_store_frame (stem : String → String) (met : String → List String)
    (index : String) (s : Store) (text : String) (o : Option SearchOptions)
    (k : String) (hk : k ≠ tmpKey index) :
    (metaphoneSearch stem met index s text o).2 k = s k := by
  rw [metaphoneSearch, processLanguage_metaphoneKeys]
  by_cases hik : index = ""
  · rw [if_pos hik]
  · rw [if_neg hik]
    set keys := getMetaphoneKeys met index (getStemWords stem (getWords text)) with hkeys
    by_cases hke : keys.isEmpty
    · simp only [hke, if_true]
    · simp only [hke, Bool.false_eq_true, if_false]
      rw [applyCmd_other (by simpa [cmdKey] using hk),
        applyCmd_other (by simpa [cmdKey_combineCmd] using hk)]

/-! ### Last-write-wins lemmas for `zadd` (C1) -/

theorem inner_untouched (index id : String) (n : Nat) (codes : List String) (c : String)
    (hc : c ∉ codes) : ∀ s,
    zscoreD ((applyCmds s (innerCmds index id n codes)) (wordKey index c)) id
      = zscoreD (s (wordKey index c)) id := by
  induction codes with
  | nil => intro s; rfl
  | cons wk rest ih =>
    intro s
    have he : innerCmds index id n (wk :: rest)
        = Cmd.zadd (wordKey index wk) n id :: Cmd.zadd (objectKey index id) n wk
          :: innerCmds index id n rest := by
      simp [innerCmds]
    have hcr : c ∉ rest := fun hm => hc (List.mem_cons_of_mem _ hm)
    have hcw : c ≠ wk := fun he' => hc (he' ▸ List.mem_cons_self _ _)
    rw [he, applyCmds_cons, applyCmds_cons, ih hcr,
      applyCmd_other (by simpa [cmdKey] using wordKey_ne_objectKey index c id),
      applyCmd_other (by
        simpa [cmdKey] using fun he' => hcw (wordKey_inj he'))]

theorem inner_determined (index id : String) (n : Nat) (codes : List String) (c : String)
    (hc : c ∈ codes) : ∀ s,
    zscoreD ((applyCmds s (innerCmds index id n codes)) (wordKey index c)) id = some n := by
  induction codes with
  | nil => cases hc
  | cons wk rest ih =>
    intro s
    have he : innerCmds index id n (wk :: rest)
        = Cmd.zadd (wordKey index wk) n id :: Cmd.zadd (objectKey index id) n wk
          :: innerCmds index id n rest := by
      simp [innerCmds]
    rw [he, applyCmds_cons, applyCmds_cons]
    by_cases hm : c ∈ rest
    · exact ih hm _
    · have hcw : c = wk := by
        rcases List.mem_cons.mp hc with h' | h'
        · exact h'
        · exact absurd h' hm
      subst hcw
      rw [inner_untouched index id n rest c hm _,
        applyCmd_other (by simpa [cmdKey] using wordKey_ne_objectKey index c id),
        applyCmd_self_zadd, zscoreD_zaddEntry]
      simp

theorem items_untouched (index id : String) (items : List (Nat × List String)) (c : String)
    (hc : c ∉ itemCodes items) : ∀ s,
    zscoreD ((applyCmds s (itemCmds index id items)) (wordKey index c)) id
      = zscoreD (s (wordKey index c)) id := by
  induction items with
  | nil => intro s; rfl
  | cons it rest ih =>
    intro s
    have he : itemCmds index id (it :: rest)
        = innerCmds index id it.1 it.2 ++ itemCmds index id rest := by
      simp [itemCmds]
    have hsplit : c ∉ it.2 ∧ c ∉ itemCodes rest := by
      constructor
      · intro hm
        apply hc
        show c ∈ (it :: rest).flatMap (·.2)
        exact List.mem_flatMap.mpr ⟨it, List.mem_cons_self _ _, hm⟩
      · intro hm
        apply hc
        show c ∈ (it :: rest).flatMap (·.2)
        obtain ⟨it', hit', hm'⟩ := List.mem_flatMap.mp hm
        exact List.mem_flatMap.mpr ⟨it', List.mem_cons_of_mem _ hit', hm'⟩
    rw [he, applyCmds_append, ih hsplit.2, inner_untouched index id it.1 it.2 c hsplit.1]

theorem items_determined (index id : String) (items : List (Nat × List String)) (c : String)
    (hc : c ∈ itemCodes items) : ∀ s₁ s₂,
    zscoreD ((applyCmds s₁ (itemCmds index id items)) (wordKey index c)) id
      = zscoreD ((applyCmds s₂ (itemCmds index id items)) (wordKey index c)) id := by
  induction items with
  | nil => cases hc
  | cons it rest ih =>
    intro s₁ s₂
    have he : itemCmds index id (it :: rest)
        = innerCmds index id it.1 it.2 ++ itemCmds index id rest := by
      simp [itemCmds]
    rw [he, applyCmds_append, applyCmds_append]
    by_cases hm : c ∈ itemCodes rest
    · exact ih hm _ _
    · have hci : c ∈ it.2 := by
        obtain ⟨it', hit', hm'⟩ := List.mem_flatMap.mp hc
        rcases List.mem_cons.mp hit' with h' | h'
        · exact h' ▸ hm'
        · exact absurd (List.mem_flatMap.mpr ⟨it', h', hm'⟩) hm
      rw [items_untouched index id rest c hm _, items_untouched index id rest c hm _,
        inner_determined index id it.1 it.2 c hci _, inner_determined index id it.1 it.2 c hci _]

theorem writtenCodes_eq_itemCodes (nlp : ProcessLanguage) :
    writtenCodes nlp = itemCodes (nlp.keys.map (fun w => (nlp.counts w, nlp.map w))) := by
  unfold writtenCodes itemCodes
  rw [List.flatMap_map]

/-! ### Tokenizer lemmas -/

theorem splitRunsAux_flatten (l : List Char) : ∀ cur,
    (splitRunsAux cur l).flatten = cur.reverse ++ l.filter isWordChar := by
  induction l with
  | nil =>
    intro cur
    rw [splitRunsAux]
    by_cases h : cur.isEmpty
    · simp [h, List.isEmpty_iff.mp h]
    · simp [h]
  | cons c rest ih =>
    intro cur
    rw [splitRunsAux]
    by_cases hw : isWordChar c
    · rw [if_pos hw, ih (c :: cur), List.filter_cons, if_pos hw]
      simp
    · rw [if_neg hw, List.filter_cons, if_neg hw]
      by_cases he : cur.isEmpty
      · rw [if_pos he, ih []]
        simp [List.isEmpty_iff.mp he]
      · rw [if_neg he]
        simp [ih []]

theorem splitRunsAux_all (l : List Char) : ∀ cur, cur.all isWordChar →
    (splitRunsAux cur l).all (fun r => !r.isEmpty && r.all isWordChar) := by
  induction l with
  | nil =>
    intro cur hcur
    rw [splitRunsAux]
    by_cases h : cur.isEmpty
    · simp [h]
    · have hne : cur ≠ [] := fun he => by simp [he] at h
      simp [h, hne, hcur]
  | cons c rest ih =>
    intro cur hcur
    rw [splitRunsAux]
    by_cases hw : isWordChar c
    · rw [if_pos hw]
      exact ih (c :: cur) (by simp [hcur, hw])
    · rw [if_neg hw]
      by_cases he : cur.isEmpty
      · rw [if_pos he]
        exact ih [] rfl
      · rw [if_neg he]
        have hne : cur ≠ [] := fun h' => by simp [h'] at he
        simp only [List.all_cons, Bool.and_eq_true]
        exact ⟨by simp [hne, hcur], by simpa using ih [] rfl⟩

theorem splitRunsAux_allWord (l : List Char) : ∀ cur, l.all isWordChar →
    splitRunsAux cur l
      = if (cur.reverse ++ l).isEmpty then [] else [cur.reverse ++ l] := by
  induction l with
  | nil =>
    intro cur _
    rw [splitRunsAux]
    simp
  | cons c rest ih =>
    intro cur hl
    simp only [List.all_cons, Bool.and_eq_true] at hl
    rw [splitRunsAux, if_pos hl.1, ih (c :: cur) hl.2]
    simp

theorem getWords_def (s : String) :
    getWords s = if splitRuns s.data = [] then none
      else some ((splitRuns s.data).map String.mk) := by
  unfold getWords
  by_cases h : splitRuns s.data = []
  · simp [h]
  · simp [h]

theorem getWords_ne_nil {s : String} {l : List String} (h : getWords s = some l) : l ≠ [] := by
  rw [getWords_def] at h
  by_cases hr : splitRuns s.data = []
  · rw [if_pos hr] at h
    cases h
  · rw [if_neg hr] at h
    injection h with h
    intro hnil
    rw [hnil] at h
    exact hr (List.map_eq_nil_iff.mp h)

theorem length_insertSorted (x : String) (l : List String) :
    (insertSorted x l).length = l.length + 1 := by
  induction l with
  | nil => rfl
  | cons y ys ih =>
    rw [insertSorted]
    split
    · rfl
    · simp [ih]

theorem length_sortCI (l : List String) : (sortCI l).length = l.length := by
  induction l with
  | nil => rfl
  | cons x xs ih =>
    show (insertSorted x (sortCI xs)).length = xs.length + 1
    rw [length_insertSorted, ih]

theorem all_map_mk (l : List (List Char)) (p : String → Bool) :
    ((l.map String.mk).all p) = l.all (fun r => p (String.mk r)) := by
  induction l with
  | nil => rfl
  | cons x xs ih => simp [ih]

theorem mem_getMetaphoneKeys {met : String → List String} {id : String}
    {words : List String} {k : String} (h : k ∈ getMetaphoneKeys met id words) :
    ∃ c, k = wordKey id c := by
  unfold getMetaphoneKeys at h
  obtain ⟨c, _, hce⟩ := List.mem_map.mp h
  exact ⟨c, hce.symm⟩

/-- Stores agreeing on every forward posting key give equal phonetic search
results (the combination reads only the posting sets). -/
theorem metaphoneSearch_result_eq (stem : String → String) (met : String → List String)
    (index text : String) (o : Option SearchOptions) {s s' : Store}
    (hagree : ∀ c : String, s (wordKey index c) = s' (wordKey index c)) :
    (metaphoneSearch stem met index s text o).1
      = (metaphoneSearch stem met index s' text o).1 := by
  rw [metaphoneSearch, metaphoneSearch, processLanguage_metaphoneKeys]
  by_cases hik : index = ""
  · rw [if_pos hik]
  · rw [if_neg hik]
    set keys := getMetaphoneKeys met index (getStemWords stem (getWords text)) with hkeys
    by_cases hke : keys.isEmpty
    · simp [hke]
    · simp only [hke, Bool.false_eq_true, if_false]
      exact zrangeRead_congr (combine_store_congr (fun k hk => by
        obtain ⟨c, hce⟩ := mem_getMetaphoneKeys (hkeys ▸ hk)
        rw [hce]
        exact hagree c) _ _) _ _ _

/-! ### Claim theorems -/

/-- C1 (counterexample): after `set("1", "cat cat")` then `set("1", "cat")`
with a single-code encoder, the stored score of document "1" under code
"cat" is 1 — the last call's term frequency — not 3 = 2 + 1, the sum the
claim asserts: scores do not accumulate across `set()` calls. -/
theorem c1_counterexample :
    zscoreD (c1Store (wordKey "I" "cat")) "1" = some 1
      ∧ zscoreD (c1Store (wordKey "I" "cat")) "1" ≠ some (2 + 1) := by
  constructor
  · decide
  · decide

/-- C1 (amended): the forward posting score `zadd` writes is replaced, not
accumulated: for every code the call writes, the resulting score is
independent of the pre-call store — a second `set()` overwrites the earlier
score with its own per-call term frequency. -/
theorem c1_score_replaced (stem : String → String) (met : String → List String)
    (index id text c : String) (s : Store)
    (h : c ∈ writtenCodes (processLanguage stem met text id)) :
    zscoreD ((setMetaphone stem met index id text s) (wordKey index c)) id
      = zscoreD ((setMetaphone stem met index id text emptyStore) (wordKey index c)) id := by
  unfold setMetaphone
  rw [metaphoneCmds_eq_itemCmds]
  exact items_determined index id _ c (by rwa [writtenCodes_eq_itemCodes] at h) s emptyStore

/-- C1 (witness): the amended theorem applied at the concrete second
`set("1", "cat")` call over the store left by `set("1", "cat cat")`. -/
theorem c1_score_replaced_witness :
    zscoreD ((setMetaphone idStem singMet "I" "1" "cat"
        (setMetaphone idStem singMet "I" "1" "cat cat" emptyStore)) (wordKey "I" "cat")) "1"
      = zscoreD ((setMetaphone idStem singMet "I" "1" "cat" emptyStore)
        (wordKey "I" "cat")) "1" :=
  c1_score_replaced idStem singMet "I" "1" "cat" "cat"
    (setMetaphone idStem singMet "I" "1" "cat cat" emptyStore) (by decide)

/-- C2 (counterexample): after `set("3", "foo bar")`, running the same
phonetic search twice returns `["3"]` both times — the second identical
call on the unmutated store does not return an empty page, because the
combine step overwrites the ephemeral key before each read. -/
theorem c2_counterexample :
    (metaphoneSearch idStem singMet "I"
        ((metaphoneSearch idStem singMet "I" c2Store "foo bar" none).2) "foo bar" none).1
      = ["3"]
      ∧ (metaphoneSearch idStem singMet "I"
        ((metaphoneSearch idStem singMet "I" c2Store "foo bar" none).2) "foo bar" none).1
        ≠ ([] : List String) := by
  constructor
  · decide
  · decide

/-- C2 (amended): the searched rank range is indeed removed from the
ephemeral key after the read, but since every phonetic search first
rebuilds that key with an overwriting intersect/union-store, a repeated
identical search on an unmutated store returns the same result page, not
an empty one. -/
theorem c2_repeat_search_same (stem : String → String) (met : String → List String)
    (index : String) (s : Store) (text : String) (o : Option SearchOptions) :
    (metaphoneSearch stem met index
        ((metaphoneSearch stem met index s text o).2) text o).1
      = (metaphoneSearch stem met index s text o).1 :=
  metaphoneSearch_result_eq stem met index text o (fun c =>
    metaphoneSearch_store_frame stem met index s text o (wordKey index c)
      (Ne.symm (tmpKey_ne_wordKey index c)))

/-- C5: after any sequence of completed `set()`/`delete()` calls from an
empty store, forward and reverse phonetic entries mirror each other with
equal scores: the score of document `d` under code `c` in the forward
posting set always equals the score of code `c` in `d`'s reverse index
(each `delete` removes both sides in its single atomic batch). -/
theorem c5_forward_reverse_consistent (stem : String → String)
    (met : String → List String) (index : String) (ops : List Op) (c d : String) :
    zscoreD ((applyOps stem met index ops emptyStore) (wordKey index c)) d
      = zscoreD ((applyOps stem met index ops emptyStore) (objectKey index d)) c :=
  inv_applyOps stem met index ops emptyStore (inv_empty index) c d

/-- C6: after `delete(id)` completes on an index built by any completed
operation sequence, no subsequent phonetic search includes `id` in its
result; and `delete(id)` on an id with an empty reverse index leaves the
store unchanged. -/
theorem c6_delete_excludes (stem : String → String) (met : String → List String)
    (index : String) (ops : List Op) (id text : String) (o : Option SearchOptions)
    (s₂ : Store) (h : s₂ (objectKey index id) = []) :
    id ∉ (metaphoneSearch stem met index
        (removeFromIndex index id (applyOps stem met index ops emptyStore)) text o).1
      ∧ removeFromIndex index id s₂ = s₂ := by
  refine ⟨?_, removeFromIndex_noop h⟩
  intro hmem
  obtain ⟨c, hsome⟩ := metaphoneSearch_member hmem
  have hinv : Inv index (applyOps stem met index ops emptyStore) :=
    inv_applyOps stem met index ops emptyStore (inv_empty index)
  rw [delete_clears_forward index id hinv c] at hsome
  simp at hsome

/-- C6 (witness): deleting document "3" after `set("3", "foo bar")`
excludes "3" from a subsequent `search("foo bar")`, and deleting from the
empty store is a no-op. -/
theorem c6_delete_excludes_witness :
    "3" ∉ (metaphoneSearch idStem singMet "I"
        (removeFromIndex "I" "3" (applyOps idStem singMet "I"
          [Op.set "3" "foo bar"] emptyStore)) "foo bar" none).1
      ∧ removeFromIndex "I" "3" emptyStore = emptyStore :=
  c6_delete_excludes idStem singMet "I" [Op.set "3" "foo bar"] "3" "foo bar" none
    emptyStore rfl

/-- C7: the combinator resolves as the claim states: `and` and `intersect`
select the intersection-store command, `or` and `union` the union-store
command, an absent `options.type` defaults to the `and` combination, and
the resolved command names dispatch to the corresponding store operations. -/
theorem c7_combinator_resolution :
    resolveType (some QType.and) = "zinterstore"
      ∧ resolveType (some QType.intersect) = "zinterstore"
      ∧ resolveType (some QType.or) = "zunionstore"
      ∧ resolveType (some QType.union) = "zunionstore"
      ∧ resolveType none = "zinterstore"
      ∧ ∀ dest srcs, combineCmd "zinterstore" dest srcs = Cmd.zinterstore dest srcs
        ∧ combineCmd "zunionstore" dest srcs = Cmd.zunionstore dest srcs := by
  refine ⟨rfl, rfl, rfl, rfl, rfl, fun dest srcs => ⟨?_, ?_⟩⟩
  · rfl
  · rfl

/-- C8: on the phonetic-only adapter, a search while the configured mode is
not the phonetic one returns the unsupported-operation error synchronously
and the store is untouched — no command was issued. -/
theorem c8_mode_mismatch_error (stem : String → String) (met : String → List String)
    (mode : Nat) (index : String) (s : Store) (text : String) (o : Option SearchOptions)
    (h : mode ≠ 0) :
    searchP0 stem met mode index s text o
      = (.error "We only support phonetic search right now", s) := by
  rw [searchP0, if_pos h]

/-- C8 (witness): the mode-mismatch error at the concrete mode 1. -/
theorem c8_mode_mismatch_error_witness :
    searchP0 idStem singMet 1 "I" emptyStore "foo" none
      = (.error "We only support phonetic search right now", emptyStore) :=
  c8_mode_mismatch_error idStem singMet 1 "I" emptyStore "foo" none (by decide)

/-- Reduction of the typeahead search on its combination branch (at least
one derived token). -/
theorem typeaheadSearch_combine {index : String} {s : Store} {text : String}
    {o : Option SearchOptions} {ws : List String} (hge : getWords text = some ws)
    (hlen : 1 ≤ (sortCI ws).length) :
    typeaheadSearch index s text o
      = (let t := resolveType (o.bind (·.type));
         let tkey := if t == "zunionstore" then cacheKey index (joinSep "|" (sortCI ws))
           else cacheKey index (joinSep "&" (sortCI ws));
         let s1 := applyCmd s
           (combineCmd t tkey ((sortCI ws).map (fun d => tokenKey index d)));
         .ok (zrangeRead s1 tkey (optStart o) (optStop o) false, s1)) := by
  rw [typeaheadSearch, hge]
  exact if_pos hlen

/-- C4 (counterexample): a prefix-strategy search whose query has no word
characters does not return an empty result list — it throws (the `null`
word list is sorted), contradicting the claim for the prefix strategy. -/
theorem c4_counterexample :
    typeaheadSearch "I" c3Store "!" none
      = .error "TypeError: Cannot read properties of null (reading sort)" := rfl

/-- C4 (amended): a query yielding zero derivable tokens returns an empty
list with no store access on the phonetic strategy, but on the
prefix/typeahead strategy it raises a `TypeError` (the `null` word list is
sorted) before any store access. -/
theorem c4_empty_query (stem : String → String) (met : String → List String)
    (index : String) (s : Store) (text : String) (o : Option SearchOptions)
    (h : getWords text = none) :
    metaphoneSearch stem met index s text o = ([], s)
      ∧ typeaheadSearch index s text o
        = .error "TypeError: Cannot read properties of null (reading sort)" := by
  constructor
  · rw [metaphoneSearch, processLanguage_metaphoneKeys, h]
    by_cases hik : index = ""
    · rw [if_pos hik]
    · rw [if_neg hik]
      rfl
  · rw [typeaheadSearch, h]

/-- C4 (witness): the empty query on both strategies, phonetic returning
the empty page and typeahead throwing. -/
theorem c4_empty_query_witness :
    metaphoneSearch idStem singMet "I" emptyStore "" none = ([], emptyStore)
      ∧ typeaheadSearch "I" emptyStore "" none
        = .error "TypeError: Cannot read properties of null (reading sort)" :=
  c4_empty_query idStem singMet "I" emptyStore "" none rfl

/-- C3 (counterexample): after the prefix-strategy `set("2", "bar")`, the
single-token query "bar" writes the combination cache key
`I:cache:bar` (it was empty before the search and holds `("2", 0)` after),
contradicting "no combination key is created, and nothing is written". -/
theorem c3_counterexample :
    c3Store (cacheKey "I" "bar") = []
      ∧ (taStore c3Store (typeaheadSearch "I" c3Store "bar" none)) (cacheKey "I" "bar")
        = [("2", 0)] := by
  constructor
  · decide
  · decide

/-- C3 (amended): a typeahead query with exactly one token also takes the
combination branch: the content-addressed cache key `index:cache:<token>`
is written by an intersect/union-store over the token's posting set, and
the result is the ascending range read of that cache key; the direct
posting-set read happens only when zero tokens derive. -/
theorem c3_single_token_combines (index : String) (s : Store) (text : String)
    (o : Option SearchOptions) (w : String) (h : getWords text = some [w]) :
    typeaheadSearch index s text o
      = .ok (zrangeRead (applyCmd s (combineCmd (resolveType (o.bind (·.type)))
            (cacheKey index w) [tokenKey index w]))
          (cacheKey index w) (optStart o) (optStop o) false,
        applyCmd s (combineCmd (resolveType (o.bind (·.type)))
          (cacheKey index w) [tokenKey index w])) := by
  rw [typeaheadSearch_combine h (Nat.le_refl 1)]
  cases hq : o.bind (·.type) with
  | none => rfl
  | some t => cases t <;> rfl

/-- C3 (witness): the amended theorem at the concrete single-token query
"bar" over the store built by `set("2", "bar")`. -/
theorem c3_single_token_combines_witness :
    typeaheadSearch "I" c3Store "bar" none
      = .ok (zrangeRead (applyCmd c3Store
            (combineCmd (resolveType ((none : Option SearchOptions).bind (·.type)))
            (cacheKey "I" "bar") [tokenKey "I" "bar"]))
          (cacheKey "I" "bar") (optStart none) (optStop none) false,
        applyCmd c3Store (combineCmd (resolveType ((none : Option SearchOptions).bind (·.type)))
          (cacheKey "I" "bar") [tokenKey "I" "bar"])) :=
  c3_single_token_combines "I" c3Store "bar" none "bar" (by decide)

/-- C9 (counterexample): the tokenizer returns `null` (not an empty
sequence) on empty input, and a JS `null` argument is coerced to the
string `"null"` and tokenized as `["null"]`. -/
theorem c9_counterexample :
    getWords "" = none ∧ getWords "" ≠ some ([] : List String)
      ∧ getWordsJS none = some ["null"] := by
  refine ⟨rfl, ?_, rfl⟩
  decide

/-- C9 (amended): the tokenizer extracts the maximal alphanumeric runs in
order (their concatenation is exactly the word-character subsequence, each
token is a non-empty all-word-character run, and an all-word-character
input is a single token); input with no word characters — the empty string
included — yields `null` rather than an empty sequence, and a JS `null`
input is coerced to `"null"` and yields `["null"]`. -/
theorem c9_tokenizer_behavior :
    (getWordsJS none = some ["null"])
      ∧ (getWords "" = none)
      ∧ (∀ s : String, getWords s = none → s.data.filter isWordChar = [])
      ∧ (∀ (s : String) (ws : List String), getWords s = some ws →
          ws ≠ [] ∧ (ws.map String.data).flatten = s.data.filter isWordChar
            ∧ ws.all (fun w => !w.data.isEmpty && w.data.all isWordChar) = true)
      ∧ (∀ s : String, s.data ≠ [] → s.data.all isWordChar = true →
          getWords s = some [s]) := by
  refine ⟨rfl, rfl, ?_, ?_, ?_⟩
  · intro s h
    rw [getWords_def] at h
    by_cases hr : splitRuns s.data = []
    · have hfl := splitRunsAux_flatten s.data []
      rw [show splitRunsAux [] s.data = splitRuns s.data from rfl, hr] at hfl
      simpa using hfl.symm
    · rw [if_neg hr] at h
      cases h
  · intro s ws h
    rw [getWords_def] at h
    by_cases hr : splitRuns s.data = []
    · rw [if_pos hr] at h
      cases h
    · rw [if_neg hr] at h
      injection h with h
      subst h
      refine ⟨?_, ?_, ?_⟩
      · intro hnil
        exact hr (List.map_eq_nil_iff.mp hnil)
      · have hdm : ∀ r : List Char, (String.mk r).data = r := fun _ => rfl
        rw [List.map_map]
        have hmm : (String.data ∘ String.mk) = id := funext hdm
        rw [hmm, List.map_id]
        have hfl := splitRunsAux_flatten s.data []
        simpa using hfl
      · rw [all_map_mk]
        exact splitRunsAux_all s.data [] rfl
  · intro s hne hall
    rw [getWords_def]
    have hsr : splitRuns s.data = [s.data] := by
      have h1 := splitRunsAux_allWord s.data [] hall
      rw [show splitRunsAux [] s.data = splitRuns s.data from rfl] at h1
      rw [h1]
      simp [hne]
    rw [hsr, if_neg (by simp)]
    rfl

/-- C9 (witness): the amended theorem's conditional parts applied at the
concrete inputs "!?" (no word characters) and "cat" (all word characters). -/
theorem c9_tokenizer_behavior_witness :
    ("!?".data.filter isWordChar = []) ∧ (getWords "cat" = some ["cat"]) :=
  ⟨c9_tokenizer_behavior.2.2.1 "!?" (by decide),
   c9_tokenizer_behavior.2.2.2.2 "cat" (by decide) (by decide)⟩

/-- C10: the tokenizer never produces an empty token array (it returns
`null` or a non-empty array), so the typeahead branch that reads a single
token's posting set directly — taken only when the derived token list is
empty — is unreachable: every typeahead search that completes without
throwing has written (created or refreshed) a combination `:cache:` key. -/
theorem c10_direct_branch_unreachable :
    (∀ (text : String) (l : List String), getWords text = some l → l ≠ [])
      ∧ ∀ (index : String) (s : Store) (text : String) (o : Option SearchOptions),
        (typeaheadSearch index s text o).isOk = true →
        ∃ body srcs, taStore s (typeaheadSearch index s text o)
          = applyCmd s (combineCmd (resolveType (o.bind (·.type)))
              (cacheKey index body) srcs) := by
  constructor
  · exact fun _ _ h => getWords_ne_nil h
  · intro index s text o hok
    cases hge : getWords text with
    | none =>
      rw [typeaheadSearch, hge] at hok
      cases hok
    | some ws =>
      have hne : ws ≠ [] := getWords_ne_nil hge
      have hlen : 1 ≤ (sortCI ws).length := by
        rw [length_sortCI]
        cases ws with
        | nil => exact absurd rfl hne
        | cons a as => simp
      rw [typeaheadSearch_combine hge hlen]
      cases hq : o.bind (·.type) with
      | none =>
        exact ⟨joinSep "&" (sortCI ws), (sortCI ws).map (fun d => tokenKey index d), rfl⟩
      | some t =>
        cases t with
        | intersect =>
          exact ⟨joinSep "&" (sortCI ws), (sortCI ws).map (fun d => tokenKey index d), rfl⟩
        | union =>
          exact ⟨joinSep "|" (sortCI ws), (sortCI ws).map (fun d => tokenKey index d), rfl⟩
        | and =>
          exact ⟨joinSep "&" (sortCI ws), (sortCI ws).map (fun d => tokenKey index d), rfl⟩
        | or =>
          exact ⟨joinSep "|" (sortCI ws), (sortCI ws).map (fun d => tokenKey index d), rfl⟩

/-- C10 (witness): the theorem at the concrete single-token query "bar"
(which completes without throwing and wrote the cache key). -/
theorem c10_direct_branch_unreachable_witness :
    (["bar"] : List String) ≠ []
      ∧ ∃ body srcs, taStore c3Store (typeaheadSearch "I" c3Store "bar" none)
        = applyCmd c3Store
            (combineCmd (resolveType ((none : Option SearchOptions).bind (·.type)))
            (cacheKey "I" body) srcs) :=
  ⟨c10_direct_branch_unreachable.1 "bar" ["bar"] (by decide),
   c10_direct_branch_unreachable.2 "I" c3Store "bar" none (by decide)⟩

end Unisearch
